import Mathlib

/-!
Shallow embedding of the PRNG backends of libcoap's `include/coap2/coap_prng.h`.

Each C backend fills a caller-supplied buffer from an underlying word
generator.  The generator is modelled as an infinite stream of raw words
together with a read position; one generator call returns the word at the
current position (reduced to the generator's word type) and advances the
position.  A `fill` call is modelled as a pure function returning its
`int` result, the list of bytes it wrote (these land at the start of the
destination buffer), and the generator state after the call.
-/

/-- The `n` low-order bytes of `v`, least significant first.  These are the
bytes `memcpy(buf, &v, n)` copies from a little-endian machine word, and
also the bytes the Win32 loop `*buf++ = (uint8_t)r; r >>= 8;` emits. -/
def leBytes : Nat → Nat → List Nat
  | _, 0 => []
  | v, n + 1 => v % 256 :: leBytes (v / 256) n

/-- State of a word generator: the infinite stream of raw words it will
produce, and the current read position in that stream. -/
structure PrngState where
  stream : Nat → Nat
  pos : Nat

/-- Contiki's `random_rand()`: returns the next word reduced to `uint16_t`
and advances the stream position by one. -/
def random_rand (s : PrngState) : Nat × PrngState :=
  (s.stream s.pos % 65536, ⟨s.stream, s.pos + 1⟩)

/-- lwIP's `LWIP_RAND()`: returns the next word reduced to `u32_t` and
advances the stream position by one. -/
def LWIP_RAND (s : PrngState) : Nat × PrngState :=
  (s.stream s.pos % 4294967296, ⟨s.stream, s.pos + 1⟩)

/-- Result of one `fill` call: the `int` return value, the list of bytes
written (they occupy the start of the destination buffer), and the
generator state after the call. -/
structure FillResult (σ : Type) where
  ret : Nat
  written : List Nat
  state : σ

/-- The `while (len > sizeof(v))` loop of `contiki_prng_impl`, entered with
the current word `v` (`sizeof(uint16_t) = 2`).  The loop body copies the
two bytes of `v`, advances, and draws the next word; the trailing
`memcpy(buf, &v, len)` of the source is the `else` branch (reached with
`len ≤ 2`). -/
def contikiLoop (v len : Nat) (s : PrngState) : List Nat × PrngState :=
  if _h : 2 < len then
    let p := random_rand s
    let r := contikiLoop p.1 (len - 2) p.2
    (leBytes v 2 ++ r.1, r.2)
  else
    (leBytes v len, s)
termination_by len
decreasing_by omega

/-- `contiki_prng_impl(buf, len)`: `uint16_t v = random_rand();` then the
copy loop, then the final partial `memcpy`; always returns 1. -/
def contiki_prng_impl (s : PrngState) (len : Nat) : FillResult PrngState :=
  let p := random_rand s
  let r := contikiLoop p.1 len p.2
  ⟨1, r.1, r.2⟩

/-- The `while (len > sizeof(v))` loop of `lwip_prng_impl`
(`sizeof(u32_t) = 4`); the trailing `memcpy(buf, &v, len)` is the `else`
branch (reached with `len ≤ 4`). -/
def lwipLoop (v len : Nat) (s : PrngState) : List Nat × PrngState :=
  if _h : 4 < len then
    let p := LWIP_RAND s
    let r := lwipLoop p.1 (len - 4) p.2
    (leBytes v 4 ++ r.1, r.2)
  else
    (leBytes v len, s)
termination_by len
decreasing_by omega

/-- `lwip_prng_impl(buf, len)`: `u32_t v = LWIP_RAND();` then the copy
loop, then the final partial `memcpy`; always returns 1. -/
def lwip_prng_impl (s : PrngState) (len : Nat) : FillResult PrngState :=
  let p := LWIP_RAND s
  let r := lwipLoop p.1 len p.2
  ⟨1, r.1, r.2⟩

/-- State of the Win32 `rand_s` source: a stream of call outcomes (`none`
models a call that fails with a nonzero `errno_t`, `some w` a call that
stores the word `w`), and the current position. -/
structure RandSState where
  stream : Nat → Option Nat
  pos : Nat

/-- Win32 `rand_s(&r)`: consumes one stream position; on success the
stored value is an `unsigned int`, i.e. reduced modulo `2^32`. -/
def rand_s (s : RandSState) : Option Nat × RandSState :=
  ((s.stream s.pos).map (fun r => r % 4294967296), ⟨s.stream, s.pos + 1⟩)

/-- `coap_prng_impl(buf, len)`, the Win32 backend: while `len != 0`, call
`rand_s(&r)`; on failure return 0 at once; on success emit
`min len 4` low-order bytes of `r` (the inner `for` loop with
`i < len && i < 4`), subtract `i` from `len`, and continue; return 1 when
`len` reaches 0. -/
def coap_prng_impl (s : RandSState) (len : Nat) : FillResult RandSState :=
  if _h : len = 0 then ⟨1, [], s⟩
  else
    let p := rand_s s
    match p.1 with
    | none => ⟨0, [], p.2⟩
    | some r =>
      let i := min len 4
      let rest := coap_prng_impl p.2 (len - i)
      ⟨rest.ret, leBytes r i ++ rest.written, rest.state⟩
termination_by len
decreasing_by omega

/-- Modelled from the spec: Contiki's `random_init(seed)` (declared
outside this repository) deterministically reinitializes the generator's
internal state from its `unsigned short` seed, discarding the previous
state, so that the subsequent `random_rand()` sequence is a function of
the seed alone.  The family `f` maps each seed to the word stream the
reseeded generator will produce. -/
def random_init (f : Nat → Nat → Nat) (seed : Nat) : PrngState :=
  ⟨f seed, 0⟩

/-- Contiki configuration: the macro `prng_init(Value)` expands to
`random_init((uint16_t)(Value))`; the cast truncates the seed to 16 bits.
As a state transformer on the generator it ignores the previous state. -/
def contiki_prng_init (f : Nat → Nat → Nat) (v : Nat) (_s : PrngState) :
    PrngState :=
  random_init f (v % 65536)

/-- lwIP configuration: the macro `prng_init(Value)` expands to nothing,
so seeding is the identity on all state. -/
def lwip_prng_init (_v : Nat) (s : PrngState) : PrngState := s

/-- Win32 configuration: the macro `prng_init(Value)` expands to nothing,
so seeding is the identity on all state. -/
def win32_prng_init (_v : Nat) (s : RandSState) : RandSState := s

/-- Effect of a `fill` call on a destination buffer: the bytes written
overwrite the front of the buffer, the rest is untouched. -/
def applyFill (buf w : List Nat) : List Nat :=
  w ++ buf.drop w.length

/-! ### Basic lemmas -/

theorem leBytes_length (v n : Nat) : (leBytes v n).length = n := by
  induction n generalizing v with
  | zero => rfl
  | succ n ih => simp [leBytes, ih]

theorem applyFill_nil (buf : List Nat) : applyFill buf [] = buf := by
  simp [applyFill]

theorem applyFill_getElem (buf w : List Nat) (i : Nat) (h : w.length ≤ i) :
    (applyFill buf w)[i]? = buf[i]? := by
  unfold applyFill
  rw [List.getElem?_append_right h, List.getElem?_drop]
  congr 1
  omega

/-! ### The Contiki and lwIP word loops -/

theorem contikiLoop_spec (len : Nat) :
    ∀ v s, (contikiLoop v len s).1.length = len ∧
      (contikiLoop v len s).2.stream = s.stream ∧
      (contikiLoop v len s).2.pos = s.pos + (len - 1) / 2 := by
  induction len using Nat.strong_induction_on with
  | _ len ih =>
    intro v s
    rw [contikiLoop]
    split
    · next h =>
      obtain ⟨h1, h2, h3⟩ :=
        ih (len - 2) (by omega) (random_rand s).1 (random_rand s).2
      simp only [random_rand] at h1 h2 h3 ⊢
      refine ⟨by simp [h1, leBytes_length]; omega, by simpa using h2, ?_⟩
      simp only [h3]
      omega
    · next h =>
      exact ⟨leBytes_length _ _, rfl,
        show s.pos = s.pos + (len - 1) / 2 from by omega⟩

theorem contiki_impl_spec (s : PrngState) (len : Nat) :
    (contiki_prng_impl s len).ret = 1 ∧
    (contiki_prng_impl s len).written.length = len ∧
    (contiki_prng_impl s len).state.stream = s.stream ∧
    (contiki_prng_impl s len).state.pos = s.pos + (1 + (len - 1) / 2) := by
  obtain ⟨h1, h2, h3⟩ := contikiLoop_spec len (random_rand s).1 (random_rand s).2
  simp only [random_rand] at h1 h2 h3
  refine ⟨rfl, ?_, ?_, ?_⟩
  · simpa [contiki_prng_impl, random_rand] using h1
  · simpa [contiki_prng_impl, random_rand] using h2
  · simp only [contiki_prng_impl, random_rand]
    rw [h3]
    omega

theorem lwipLoop_spec (len : Nat) :
    ∀ v s, (lwipLoop v len s).1.length = len ∧
      (lwipLoop v len s).2.stream = s.stream ∧
      (lwipLoop v len s).2.pos = s.pos + (len - 1) / 4 := by
  induction len using Nat.strong_induction_on with
  | _ len ih =>
    intro v s
    rw [lwipLoop]
    split
    · next h =>
      obtain ⟨h1, h2, h3⟩ :=
        ih (len - 4) (by omega) (LWIP_RAND s).1 (LWIP_RAND s).2
      simp only [LWIP_RAND] at h1 h2 h3 ⊢
      refine ⟨by simp [h1, leBytes_length]; omega, by simpa using h2, ?_⟩
      simp only [h3]
      omega
    · next h =>
      exact ⟨leBytes_length _ _, rfl,
        show s.pos = s.pos + (len - 1) / 4 from by omega⟩

theorem lwip_impl_spec (s : PrngState) (len : Nat) :
    (lwip_prng_impl s len).ret = 1 ∧
    (lwip_prng_impl s len).written.length = len ∧
    (lwip_prng_impl s len).state.stream = s.stream ∧
    (lwip_prng_impl s len).state.pos = s.pos + (1 + (len - 1) / 4) := by
  obtain ⟨h1, h2, h3⟩ := lwipLoop_spec len (LWIP_RAND s).1 (LWIP_RAND s).2
  simp only [LWIP_RAND] at h1 h2 h3
  refine ⟨rfl, ?_, ?_, ?_⟩
  · simpa [lwip_prng_impl, LWIP_RAND] using h1
  · simpa [lwip_prng_impl, LWIP_RAND] using h2
  · simp only [lwip_prng_impl, LWIP_RAND]
    rw [h3]
    omega

/-! ### The Win32 backend -/

/-- The byte block that `k` consecutive successful `rand_s` words starting
at stream position `p` contribute: four little-endian bytes per word. -/
def wordsBytes (g : Nat → Option Nat) (p : Nat) : Nat → List Nat
  | 0 => []
  | k + 1 => leBytes ((g p).getD 0 % 4294967296) 4 ++ wordsBytes g (p + 1) k

theorem coap_impl_total (len : Nat) :
    ∀ s : RandSState,
      ((coap_prng_impl s len).ret = 1 ∧
        (coap_prng_impl s len).written.length = len) ∨
      ((coap_prng_impl s len).ret = 0 ∧
        (coap_prng_impl s len).written.length ≤ len) := by
  induction len using Nat.strong_induction_on with
  | _ len ih =>
    intro s
    rw [coap_prng_impl]
    split
    · next h => left; subst h; exact ⟨rfl, rfl⟩
    · next h =>
      rcases hv : s.stream s.pos with _ | r
      · right
        simp [rand_s, hv]
      · have hrec := ih (len - min len 4) (by omega) ⟨s.stream, s.pos + 1⟩
        simp only [rand_s, hv, Option.map_some'] at *
        rcases hrec with ⟨h1, h2⟩ | ⟨h1, h2⟩
        · left
          refine ⟨by simpa using h1, ?_⟩
          simp only [List.length_append, leBytes_length, h2]
          omega
        · right
          refine ⟨by simpa using h1, ?_⟩
          simp only [List.length_append, leBytes_length]
          omega

theorem coap_impl_state (len : Nat) :
    ∀ s : RandSState,
      (coap_prng_impl s len).state.stream = s.stream ∧
      s.pos ≤ (coap_prng_impl s len).state.pos ∧
      (coap_prng_impl s len).state.pos ≤ s.pos + (len + 3) / 4 := by
  induction len using Nat.strong_induction_on with
  | _ len ih =>
    intro s
    rw [coap_prng_impl]
    split
    · next h => exact ⟨rfl, Nat.le_refl _, Nat.le_add_right _ _⟩
    · next h =>
      rcases hv : s.stream s.pos with _ | r
      · refine ⟨by simp [rand_s, hv], by simp [rand_s, hv], ?_⟩
        simp [rand_s, hv]
        omega
      · have hrec := ih (len - min len 4) (by omega) ⟨s.stream, s.pos + 1⟩
        simp only [rand_s, hv, Option.map_some'] at *
        obtain ⟨h1, h2, h3⟩ := hrec
        refine ⟨by simpa using h1, ?_, ?_⟩
        · omega
        · omega

theorem coap_impl_success_pos (len : Nat) :
    ∀ s : RandSState, (coap_prng_impl s len).ret = 1 →
      (coap_prng_impl s len).state.pos = s.pos + (len + 3) / 4 := by
  induction len using Nat.strong_induction_on with
  | _ len ih =>
    intro s hret
    rw [coap_prng_impl] at hret ⊢
    by_cases h : len = 0
    · subst h
      simp
    · rw [dif_neg h] at hret ⊢
      rcases hv : s.stream s.pos with _ | r
      · simp [rand_s, hv] at hret
      · have hrec := ih (len - min len 4) (by omega) ⟨s.stream, s.pos + 1⟩
        simp only [rand_s, hv, Option.map_some'] at hret ⊢
        have hp := hrec (by simpa using hret)
        rw [hp]
        show s.pos + 1 + (len - min len 4 + 3) / 4 = s.pos + (len + 3) / 4
        omega

theorem coap_impl_fail_first (s : RandSState) (len : Nat) (h0 : len ≠ 0)
    (hn : s.stream s.pos = none) :
    coap_prng_impl s len = ⟨0, [], ⟨s.stream, s.pos + 1⟩⟩ := by
  rw [coap_prng_impl, dif_neg h0]
  simp [rand_s, hn]

theorem wordsBytes_length (g : Nat → Option Nat) (p k : Nat) :
    (wordsBytes g p k).length = 4 * k := by
  induction k generalizing p with
  | zero => rfl
  | succ k ih => simp [wordsBytes, leBytes_length, ih]; omega

theorem coap_impl_partial (k : Nat) :
    ∀ (s : RandSState) (len : Nat),
      (∀ i, i < k → (s.stream (s.pos + i)).isSome = true) →
      s.stream (s.pos + k) = none →
      4 * k < len →
      (coap_prng_impl s len).ret = 0 ∧
      (coap_prng_impl s len).written = wordsBytes s.stream s.pos k := by
  induction k with
  | zero =>
    intro s len hsome hnone hlen
    rw [show s.pos + 0 = s.pos from rfl] at hnone
    rw [coap_impl_fail_first s len (by omega) hnone]
    exact ⟨rfl, rfl⟩
  | succ k ih =>
    intro s len hsome hnone hlen
    obtain ⟨r, hr⟩ : ∃ r, s.stream s.pos = some r := by
      have hs := hsome 0 (by omega)
      rw [show s.pos + 0 = s.pos from rfl] at hs
      cases hv : s.stream s.pos
      · rw [hv] at hs; simp at hs
      · exact ⟨_, rfl⟩
    have hmin : min len 4 = 4 := by omega
    have hrec := ih ⟨s.stream, s.pos + 1⟩ (len - 4)
      (fun i hi => by
        have hs := hsome (i + 1) (by omega)
        rw [show s.pos + (i + 1) = s.pos + 1 + i from by omega] at hs
        exact hs)
      (by
        have hs := hnone
        rw [show s.pos + (k + 1) = s.pos + 1 + k from by omega] at hs
        exact hs)
      (by omega)
    rw [coap_prng_impl, dif_neg (show ¬ len = 0 from by omega)]
    simp only [rand_s, hr, Option.map_some', hmin]
    obtain ⟨hr1, hr2⟩ := hrec
    refine ⟨by simpa using hr1, ?_⟩
    show leBytes (r % 4294967296) 4 ++
        (coap_prng_impl ⟨s.stream, s.pos + 1⟩ (len - 4)).written =
      wordsBytes s.stream s.pos (k + 1)
    rw [hr2]
    show leBytes (r % 4294967296) 4 ++ wordsBytes s.stream (s.pos + 1) k =
      leBytes ((s.stream s.pos).getD 0 % 4294967296) 4 ++
        wordsBytes s.stream (s.pos + 1) k
    rw [hr]
    rfl

theorem coap_impl_zero (s : RandSState) : coap_prng_impl s 0 = ⟨1, [], s⟩ := by
  rw [coap_prng_impl]
  rfl

/-! ### Claim theorems -/

/-- Claim C1: for every backend in this file (`contiki_prng_impl`,
`lwip_prng_impl` and the Win32 `coap_prng_impl`) and every `len ≥ 0`,
`fill(buf, len)` either returns 1 having written exactly `len` bytes into
the buffer, or returns 0; in no case does it touch a byte of the
destination at an index `≥ len`. -/
theorem C1_fill_all_or_nothing :
    (∀ (s : PrngState) (len : Nat),
      (contiki_prng_impl s len).ret = 1 ∧
      (contiki_prng_impl s len).written.length = len ∧
      ∀ (buf : List Nat) (i : Nat), len ≤ i →
        (applyFill buf (contiki_prng_impl s len).written)[i]? = buf[i]?) ∧
    (∀ (s : PrngState) (len : Nat),
      (lwip_prng_impl s len).ret = 1 ∧
      (lwip_prng_impl s len).written.length = len ∧
      ∀ (buf : List Nat) (i : Nat), len ≤ i →
        (applyFill buf (lwip_prng_impl s len).written)[i]? = buf[i]?) ∧
    (∀ (s : RandSState) (len : Nat),
      (((coap_prng_impl s len).ret = 1 ∧
          (coap_prng_impl s len).written.length = len) ∨
        ((coap_prng_impl s len).ret = 0 ∧
          (coap_prng_impl s len).written.length ≤ len)) ∧
      ∀ (buf : List Nat) (i : Nat), len ≤ i →
        (applyFill buf (coap_prng_impl s len).written)[i]? = buf[i]?) := by
  refine ⟨fun s len => ?_, fun s len => ?_, fun s len => ?_⟩
  · obtain ⟨h1, h2, -, -⟩ := contiki_impl_spec s len
    exact ⟨h1, h2, fun buf i hi => applyFill_getElem buf _ i (by omega)⟩
  · obtain ⟨h1, h2, -, -⟩ := lwip_impl_spec s len
    exact ⟨h1, h2, fun buf i hi => applyFill_getElem buf _ i (by omega)⟩
  · have h := coap_impl_total len s
    refine ⟨h, fun buf i hi => applyFill_getElem buf _ i ?_⟩
    rcases h with ⟨-, h2⟩ | ⟨-, h2⟩ <;> omega

/-- Witness for C1 at concrete inputs: a 3-byte Contiki fill leaves index
4 of a 5-byte buffer alone, and a failing Win32 fill of length 2 leaves
index 2 of a 3-byte buffer alone. -/
theorem C1_fill_all_or_nothing_witness :
    (3 : Nat) ≤ 4 ∧
    (applyFill [9, 9, 9, 9, 9]
      (contiki_prng_impl ⟨fun j => j, 0⟩ 3).written)[4]? = [9, 9, 9, 9, 9][4]? ∧
    (applyFill [7, 7, 7]
      (coap_prng_impl ⟨fun _ => none, 0⟩ 2).written)[2]? = [7, 7, 7][2]? :=
  ⟨by decide,
   (C1_fill_all_or_nothing.1 ⟨fun j => j, 0⟩ 3).2.2 [9, 9, 9, 9, 9] 4 (by decide),
   (C1_fill_all_or_nothing.2.2 ⟨fun _ => none, 0⟩ 2).2 [7, 7, 7] 2 (by decide)⟩

/-- Claim C2: every backend called with `len = 0` returns 1 and leaves
every byte of the destination buffer unchanged. -/
theorem C2_zero_length_noop :
    ∀ buf : List Nat,
      (∀ s : PrngState, (contiki_prng_impl s 0).ret = 1 ∧
        applyFill buf (contiki_prng_impl s 0).written = buf) ∧
      (∀ s : PrngState, (lwip_prng_impl s 0).ret = 1 ∧
        applyFill buf (lwip_prng_impl s 0).written = buf) ∧
      (∀ s : RandSState, (coap_prng_impl s 0).ret = 1 ∧
        applyFill buf (coap_prng_impl s 0).written = buf) := by
  intro buf
  refine ⟨fun s => ?_, fun s => ?_, fun s => ?_⟩
  · obtain ⟨h1, h2, -, -⟩ := contiki_impl_spec s 0
    rw [List.length_eq_zero] at h2
    rw [h2, applyFill_nil]
    exact ⟨h1, rfl⟩
  · obtain ⟨h1, h2, -, -⟩ := lwip_impl_spec s 0
    rw [List.length_eq_zero] at h2
    rw [h2, applyFill_nil]
    exact ⟨h1, rfl⟩
  · rcases coap_impl_total 0 s with ⟨h1, h2⟩ | ⟨h1, h2⟩
    · rw [List.length_eq_zero] at h2
      rw [h2, applyFill_nil]
      exact ⟨h1, rfl⟩
    · rw [Nat.le_zero, List.length_eq_zero] at h2
      rw [coap_impl_zero] at h1
      simp at h1

/-- Counterexample to claim C3 as stated: with the word stream at
position 0, a Contiki fill of length 0 writes no byte into the buffer
and yet moves the `random_rand` word-stream position to 1, because
`contiki_prng_impl` draws one word before entering its loop. -/
theorem C3_counterexample :
    (contiki_prng_impl ⟨fun _ => 0, 0⟩ 0).written = [] ∧
    ¬ (contiki_prng_impl ⟨fun _ => 0, 0⟩ 0).state.pos = 0 := by
  constructor
  · exact List.length_eq_zero.mp (contiki_impl_spec ⟨fun _ => 0, 0⟩ 0).2.1
  · have h4 := (contiki_impl_spec ⟨fun _ => 0, 0⟩ 0).2.2.2
    simp only [h4]
    decide

/-- Claim C3 (amended): a `fill` call of the Contiki or lwIP backend has
no side effect beyond the buffer other than advancing the word-stream
position: the stream of future words is unchanged, and the position
advances by exactly `1 + (len - 1) / w` words (`w` the word size), so one
word is consumed even when `len = 0` and no bytes are written. -/
theorem C3_amended_frame :
    ∀ (s : PrngState) (len : Nat),
      (contiki_prng_impl s len).state.stream = s.stream ∧
      (contiki_prng_impl s len).state.pos = s.pos + (1 + (len - 1) / 2) ∧
      (lwip_prng_impl s len).state.stream = s.stream ∧
      (lwip_prng_impl s len).state.pos = s.pos + (1 + (len - 1) / 4) :=
  fun s len =>
    ⟨(contiki_impl_spec s len).2.2.1, (contiki_impl_spec s len).2.2.2,
     (lwip_impl_spec s len).2.2.1, (lwip_impl_spec s len).2.2.2⟩

/-- Claim C4: in the Win32 backend, a failing `rand_s` makes
`coap_prng_impl` return 0 at once — nothing is written by that
iteration, no retry happens (exactly the one failing call is consumed) —
and on a successful run each 4-byte chunk consumes exactly one
successful `rand_s` call: the position advances by `⌈len / 4⌉`. -/
theorem C4_fail_fast :
    (∀ (s : RandSState) (len : Nat), len ≠ 0 → s.stream s.pos = none →
      coap_prng_impl s len = ⟨0, [], ⟨s.stream, s.pos + 1⟩⟩) ∧
    (∀ (s : RandSState) (len : Nat), (coap_prng_impl s len).ret = 1 →
      (coap_prng_impl s len).state.pos = s.pos + (len + 3) / 4) :=
  ⟨coap_impl_fail_first, fun s len => coap_impl_success_pos len s⟩

/-- Witness for C4: an always-failing source at position 5 asked for 6
bytes returns 0 after exactly one call; an always-succeeding source asked
for 6 bytes ends `⌈6 / 4⌉ = 2` positions further. -/
theorem C4_fail_fast_witness :
    coap_prng_impl ⟨fun _ => none, 5⟩ 6 = ⟨0, [], ⟨fun _ => none, 6⟩⟩ ∧
    (coap_prng_impl ⟨fun _ => some 1, 0⟩ 6).state.pos = 0 + (6 + 3) / 4 :=
  ⟨C4_fail_fast.1 ⟨fun _ => none, 5⟩ 6 (by decide) rfl,
   C4_fail_fast.2 ⟨fun _ => some 1, 0⟩ 6 (by simp [coap_prng_impl, rand_s])⟩

/-- Claim C5: if in the Win32 backend `rand_s` succeeds `k` times and
fails on call `k + 1` while `4 * k < len`, the call returns 0 having
overwritten exactly the first `4 * k` bytes of the buffer with the
little-endian bytes of the `k` successful words, and every byte at index
`≥ 4 * k` is unchanged. -/
theorem C5_partial_fill_frame :
    ∀ (s : RandSState) (len k : Nat),
      (∀ i, i < k → (s.stream (s.pos + i)).isSome = true) →
      s.stream (s.pos + k) = none →
      4 * k < len →
      (coap_prng_impl s len).ret = 0 ∧
      (coap_prng_impl s len).written = wordsBytes s.stream s.pos k ∧
      (coap_prng_impl s len).written.length = 4 * k ∧
      ∀ (buf : List Nat) (i : Nat), 4 * k ≤ i →
        (applyFill buf (coap_prng_impl s len).written)[i]? = buf[i]? := by
  intro s len k hsome hnone hlen
  obtain ⟨h1, h2⟩ := coap_impl_partial k s len hsome hnone hlen
  refine ⟨h1, h2, ?_, ?_⟩
  · rw [h2, wordsBytes_length]
  · intro buf i hi
    apply applyFill_getElem
    rw [h2, wordsBytes_length]
    omega

/-- Witness for C5: one successful word 258 then a failure, with 6 bytes
requested: the call returns 0 with exactly the 4 little-endian bytes
`[2, 1, 0, 0]` of word 258 written. -/
theorem C5_partial_fill_frame_witness :
    (coap_prng_impl ⟨fun j => if j = 0 then some 258 else none, 0⟩ 6).ret = 0 ∧
    (coap_prng_impl ⟨fun j => if j = 0 then some 258 else none, 0⟩ 6).written =
      wordsBytes (fun j => if j = 0 then some 258 else none) 0 1 ∧
    wordsBytes (fun j => if j = 0 then some 258 else none) 0 1 = [2, 1, 0, 0] :=
  ⟨(C5_partial_fill_frame ⟨fun j => if j = 0 then some 258 else none, 0⟩ 6 1
      (fun i hi => by
        have hz : i = 0 := by omega
        subst hz
        rfl)
      rfl (by decide)).1,
   (C5_partial_fill_frame ⟨fun j => if j = 0 then some 258 else none, 0⟩ 6 1
      (fun i hi => by
        have hz : i = 0 := by omega
        subst hz
        rfl)
      rfl (by decide)).2.1,
   by simp [wordsBytes, leBytes]⟩

/-- Claim C6: the 16-bit Contiki backend asked for 5 bytes performs
exactly 3 `random_rand` invocations (the stream position advances by 3)
and writes exactly 5 bytes, returning 1. -/
theorem C6_contiki_five_bytes :
    ∀ s : PrngState,
      (contiki_prng_impl s 5).state.pos = s.pos + 3 ∧
      (contiki_prng_impl s 5).written.length = 5 ∧
      (contiki_prng_impl s 5).ret = 1 := by
  intro s
  obtain ⟨h1, h2, -, h4⟩ := contiki_impl_spec s 5
  exact ⟨h4, h2, h1⟩

/-- Claim C7: for the seedable Contiki backend, with `random_init` and
`random_rand` modelled as a deterministic generator state machine,
seeding with `seed` and filling `N` bytes, then reseeding with the same
`seed` (from whatever state the first run left) and filling `N` bytes
again, produces identical return values and byte-for-byte identical
output in both runs: the output is a function of seed and length alone. -/
theorem C7_seed_reproducible :
    ∀ (f : Nat → Nat → Nat) (seed N : Nat) (s0 : PrngState),
      (contiki_prng_impl (contiki_prng_init f seed s0) N).written =
        (contiki_prng_impl
          (contiki_prng_init f seed
            (contiki_prng_impl (contiki_prng_init f seed s0) N).state)
          N).written ∧
      (contiki_prng_impl (contiki_prng_init f seed s0) N).ret =
        (contiki_prng_impl
          (contiki_prng_init f seed
            (contiki_prng_impl (contiki_prng_init f seed s0) N).state)
          N).ret :=
  fun _ _ _ _ => ⟨rfl, rfl⟩

/-- Claim C8: on the Win32 and lwIP configurations `prng_init` is a
complete no-op: it is the identity on all generator state, for every
seed value, and a subsequent `fill` behaves exactly as if `prng_init`
had never been called. -/
theorem C8_seed_noop_win32_lwip :
    ∀ (v : Nat) (s : PrngState) (t : RandSState) (len : Nat),
      lwip_prng_init v s = s ∧
      win32_prng_init v t = t ∧
      lwip_prng_impl (lwip_prng_init v s) len = lwip_prng_impl s len ∧
      coap_prng_impl (win32_prng_init v t) len = coap_prng_impl t len :=
  fun _ _ _ _ => ⟨rfl, rfl, rfl, rfl⟩

/-- Claim C9: every backend terminates for every length and every total
word source, with a bounded number of generator invocations: the Contiki
stream advances by exactly `1 + (len - 1) / 2` positions, the lwIP stream
by exactly `1 + (len - 1) / 4`, and the Win32 stream by at most
`(len + 3) / 4` (fewer only when a call fails and the function returns 0
early). -/
theorem C9_terminates_bounded_calls :
    ∀ len : Nat,
      (∀ s : PrngState,
        (contiki_prng_impl s len).state.pos = s.pos + (1 + (len - 1) / 2)) ∧
      (∀ s : PrngState,
        (lwip_prng_impl s len).state.pos = s.pos + (1 + (len - 1) / 4)) ∧
      (∀ s : RandSState,
        (coap_prng_impl s len).state.pos ≤ s.pos + (len + 3) / 4) :=
  fun len =>
    ⟨fun s => (contiki_impl_spec s len).2.2.2,
     fun s => (lwip_impl_spec s len).2.2.2,
     fun s => (coap_impl_state len s).2.2⟩

/-- Claim C10: the Contiki `prng_init` truncates its seed to the low 16
bits before handing it to `random_init`: seeds congruent modulo `2^16`
put the generator in identical states and yield identical fill output. -/
theorem C10_seed_truncation (f : Nat → Nat → Nat) (v1 v2 : Nat)
    (s1 s2 : PrngState) (h : v1 % 65536 = v2 % 65536) :
    contiki_prng_init f v1 s1 = contiki_prng_init f v2 s2 ∧
    ∀ N, (contiki_prng_impl (contiki_prng_init f v1 s1) N).written =
      (contiki_prng_impl (contiki_prng_init f v2 s2) N).written := by
  have he : contiki_prng_init f v1 s1 = contiki_prng_init f v2 s2 := by
    unfold contiki_prng_init random_init
    rw [h]
  exact ⟨he, fun N => by rw [he]⟩

/-- Witness for C10: seeds 65537 and 1 agree modulo `2^16`, so seeding
with either from different prior states gives the same generator state. -/
theorem C10_seed_truncation_witness :
    (65537 : Nat) % 65536 = (1 : Nat) % 65536 ∧
    contiki_prng_init (fun a b => a + b) 65537 ⟨fun _ => 0, 0⟩ =
      contiki_prng_init (fun a b => a + b) 1 ⟨fun _ => 9, 4⟩ :=
  ⟨by decide,
   (C10_seed_truncation (fun a b => a + b) 65537 1 ⟨fun _ => 0, 0⟩
     ⟨fun _ => 9, 4⟩ (by decide)).1⟩
